import Mathlib

/-!
A shallow embedding of `src/vector.h`.

The C++ source is a generic growable-array container `template <typename T>
class vector` with three data members: `T* data_` (owning pointer to a raw
block, null when no block is allocated), `size_t size_` (number of live,
constructed elements, occupying the prefix of the block) and
`size_t capacity_` (number of slots in the block).

The embedding below models a container state as
  * `data_ : List α` — the live elements `data_[0 .. size_-1]` (the slots
    `[size_, capacity_)` are raw memory and are not observable);
  * `capacity_ : Nat` — the slot count of the block;
  * `addr_ : Nat` — the address value of the `data_` pointer, `0` standing for
    `nullptr`.  Fresh addresses are handed out by a counter `p` threaded
    through the operations that may allocate, so distinct allocations have
    distinct addresses.

Element copy construction and move construction may fail (throw).  Failure is
modelled by an oracle `env : Nat → Bool`: the fallible element operations
performed by a call are numbered consecutively starting from a counter `k`,
and the operation numbered `k` fails iff `env k = true`.  A successful copy or
move of an element value yields an equal value.  Element destructors and
element swaps never fail (a hard requirement the source imposes on element
types).

A fallible operation returns `Except (vector α) (vector α × Nat × Nat)`:
on success `Except.ok (w, k2, p2)` carries the new container state and the
advanced operation/address counters; on failure `Except.error w` carries the
state of the container at the moment the exception propagates out of the
call, so strong exception safety is the statement `w = v`.
-/

set_option linter.unusedVariables false

/-- Construction/destruction events performed on the new block by the private
copying constructor `vector(const vector& other, size_t new_capacity)`:
allocation of a block (identified by its address), construction of the element
at index `i`, destruction of the element at index `i`, and deallocation. -/
inductive Ev where
  | alloc (id : Nat)
  | construct (i : Nat)
  | destroy (i : Nat)
  | free (id : Nat)
deriving Repr, DecidableEq

/-- Model of `template <typename T> class vector`: the live elements, the
capacity, and the address of the storage block (0 = `nullptr`). -/
structure vector (α : Type) where
  data_ : List α
  capacity_ : Nat
  addr_ : Nat
deriving Repr, DecidableEq

namespace vector

variable {α : Type}

/-- `size_t size() const noexcept { return size_; }` — the number of live
elements, i.e. the length of the live prefix. -/
def size (v : vector α) : Nat := v.data_.length

/-- `size_t capacity() const noexcept { return capacity_; }` -/
def capacity (v : vector α) : Nat := v.capacity_

/-- `vector() noexcept = default;` — all members default-initialized:
null block, size 0, capacity 0. -/
def nil : vector α := ⟨[], 0, 0⟩

/-- One fallible element construction (copy or move): the operation numbered
`k` fails iff `env k = true`; a successful construction from the value `x`
yields an equal value. -/
def tryCopy (env : Nat → Bool) (k : Nat) (x : α) : Option α :=
  if env k then none else some x

/-- The copy loop of the private copying constructor:
`for (size_t i = 0; i < other.size(); ++i) new (data_ + i) T(other[i]);` —
copy the elements of the list in increasing index order, numbering the copy
operations consecutively from `k`.  On success returns the copied list and the
next operation number; on failure returns the index of the element whose copy
failed (the `catch` block's cleanup is accounted for in `copyCtor` below). -/
def copyElems (env : Nat → Bool) (k : Nat) : List α → Except Nat (List α × Nat)
  | [] => Except.ok ([], k)
  | x :: xs =>
    match tryCopy env k x with
    | none => Except.error 0
    | some y =>
      match copyElems env (k + 1) xs with
      | Except.ok (ys, k2) => Except.ok (y :: ys, k2)
      | Except.error i => Except.error (i + 1)

/-- Model of the private constructor `vector(const vector& other, size_t
new_capacity)`.  If `new_capacity == 0` it returns with all members still
default-initialized (no allocation; the `&other == this` disjunct of the
source's guard is unreachable for a constructor, since the object under
construction cannot be its own argument).  Otherwise it allocates a block of
`new_capacity` slots (address `p + 1`, the next fresh address), copy-constructs
`other`'s elements in increasing index order, and only then sets `capacity_`
and `size_`.  If the copy of the element at index `i` fails, the elements at
indices `i-1, i-2, ..., 0` are destroyed in that (reverse) order, the block is
freed, and the exception propagates.  The event trace of the actions on the
new block is returned alongside (success) or as the error payload (failure). -/
def copyCtor (env : Nat → Bool) (k p : Nat) (other : vector α) (new_capacity : Nat) :
    Except (List Ev) (vector α × Nat × Nat × List Ev) :=
  if new_capacity = 0 then Except.ok (⟨[], 0, 0⟩, k, p, [])
  else
    match copyElems env k other.data_ with
    | Except.ok (ys, k2) =>
        Except.ok (⟨ys, new_capacity, p + 1⟩, k2, p + 1,
          Ev.alloc (p + 1) :: (List.range other.size).map Ev.construct)
    | Except.error i =>
        Except.error (Ev.alloc (p + 1) ::
          ((List.range i).map Ev.construct ++
            ((List.range i).reverse.map Ev.destroy ++ [Ev.free (p + 1)])))

theorem copyElems_ok (env : Nat → Bool) :
    ∀ (l : List α) (k : Nat) (ys : List α) (k2 : Nat),
      copyElems env k l = Except.ok (ys, k2) → ys = l ∧ k2 = k + l.length := by
  intro l
  induction l with
  | nil =>
    intro k ys k2 h
    simp only [copyElems, Except.ok.injEq, Prod.mk.injEq] at h
    simp [← h.1, ← h.2]
  | cons x xs ih =>
    intro k ys k2 h
    by_cases henv : env k
    · simp [copyElems, tryCopy, henv] at h
    · cases hc : copyElems env (k + 1) xs with
      | ok r =>
        obtain ⟨zs, k3⟩ := r
        simp [copyElems, tryCopy, henv, hc] at h
        obtain ⟨hzs, hk3⟩ := ih (k + 1) zs k3 hc
        constructor
        · rw [← h.1, hzs]
        · rw [← h.2, hk3, List.length_cons]; omega
      | error i => simp [copyElems, tryCopy, henv, hc] at h

theorem copyElems_error (env : Nat → Bool) :
    ∀ (l : List α) (k i : Nat), copyElems env k l = Except.error i →
      i < l.length ∧ env (k + i) = true ∧ ∀ j, j < i → env (k + j) = false := by
  intro l
  induction l with
  | nil => intro k i h; simp [copyElems] at h
  | cons x xs ih =>
    intro k i h
    by_cases henv : env k
    · simp [copyElems, tryCopy, henv] at h
      refine ⟨by simp only [List.length_cons]; omega, by simpa [← h] using henv, ?_⟩
      intro j hj; omega
    · cases hc : copyElems env (k + 1) xs with
      | ok r => obtain ⟨zs, k3⟩ := r; simp [copyElems, tryCopy, henv, hc] at h
      | error i2 =>
        simp [copyElems, tryCopy, henv, hc] at h
        obtain ⟨h1, h2, h3⟩ := ih (k + 1) i2 hc
        refine ⟨by simp [← h]; omega, ?_, ?_⟩
        · rw [← h, show k + (i2 + 1) = k + 1 + i2 from by omega]; exact h2
        · intro j hj
          cases j with
          | zero => simpa using eq_false_of_ne_true henv
          | succ j2 =>
            rw [show k + (j2 + 1) = k + 1 + j2 from by omega]
            exact h3 j2 (by omega)

theorem copyElems_error_of (env : Nat → Bool) :
    ∀ (l : List α) (k i : Nat), i < l.length → env (k + i) = true →
      (∀ j, j < i → env (k + j) = false) → copyElems env k l = Except.error i := by
  intro l
  induction l with
  | nil => intro k i h; simp at h
  | cons x xs ih =>
    intro k i hi henvi hbefore
    cases i with
    | zero => simp [copyElems, tryCopy, show env k = true from by simpa using henvi]
    | succ i2 =>
      have h0 : env k = false := by simpa using hbefore 0 (Nat.succ_pos _)
      have hrec : copyElems env (k + 1) xs = Except.error i2 := by
        refine ih (k + 1) i2 (by simp at hi; omega) ?_ ?_
        · rw [show k + 1 + i2 = k + (i2 + 1) from by omega]; exact henvi
        · intro j hj
          rw [show k + 1 + j = k + (j + 1) from by omega]
          exact hbefore (j + 1) (by omega)
      simp [copyElems, tryCopy, h0, hrec]

theorem copyElems_ok_of (env : Nat → Bool) :
    ∀ (l : List α) (k : Nat), (∀ j, j < l.length → env (k + j) = false) →
      copyElems env k l = Except.ok (l, k + l.length) := by
  intro l
  induction l with
  | nil => intro k h; simp [copyElems]
  | cons x xs ih =>
    intro k h
    have h0 : env k = false := by simpa using h 0 (by simp)
    have hrec : copyElems env (k + 1) xs = Except.ok (xs, k + 1 + xs.length) := by
      refine ih (k + 1) ?_
      intro j hj
      rw [show k + 1 + j = k + (j + 1) from by omega]
      exact h (j + 1) (by simp; omega)
    simp [copyElems, tryCopy, h0, hrec]
    omega

/-- Shape of a successful run of the private copying constructor with a
non-zero requested capacity: the new vector holds equal copies of the source's
elements, has exactly the requested capacity, lives at the next fresh address,
and the trace is an allocation followed by the constructions in increasing
index order. -/
theorem copyCtor_ok_shape (env : Nat → Bool) (k p : Nat) (other : vector α)
    (nc : Nat) (hnc : nc ≠ 0) (t : vector α) (k2 p2 : Nat) (evs : List Ev)
    (h : copyCtor env k p other nc = Except.ok (t, k2, p2, evs)) :
    t = ⟨other.data_, nc, p + 1⟩ ∧ k2 = k + other.size ∧ p2 = p + 1 ∧
      evs = Ev.alloc (p + 1) :: (List.range other.size).map Ev.construct := by
  rw [copyCtor, if_neg hnc] at h
  cases hc : copyElems env k other.data_ with
  | ok r =>
    obtain ⟨ys, k3⟩ := r
    obtain ⟨hys, hk3⟩ := copyElems_ok env other.data_ k ys k3 hc
    rw [hc] at h
    simp only [Except.ok.injEq, Prod.mk.injEq] at h
    obtain ⟨h1, h2, h3, h4⟩ := h
    exact ⟨by rw [← h1, hys], by rw [← h2, hk3]; rfl, by rw [← h3], by rw [← h4]⟩
  | error i => rw [hc] at h; simp at h

/-- A failed run of the private copying constructor: if the copy of the
element at index `i` is the first to fail, the constructor fails, with trace:
allocation, constructions of indices `0 .. i-1` in increasing order,
destructions of the same indices in reverse order, deallocation. -/
theorem copyCtor_error_shape (env : Nat → Bool) (k p : Nat) (other : vector α)
    (nc : Nat) (hnc : nc ≠ 0) (i : Nat) (hi : i < other.size)
    (hfail : env (k + i) = true) (hbefore : ∀ j, j < i → env (k + j) = false) :
    copyCtor env k p other nc = Except.error (Ev.alloc (p + 1) ::
      ((List.range i).map Ev.construct ++
        ((List.range i).reverse.map Ev.destroy ++ [Ev.free (p + 1)]))) := by
  rw [copyCtor, if_neg hnc, copyElems_error_of env other.data_ k i hi hfail hbefore]

/-- Any failure of the private copying constructor leaves the error payload in
the shape produced by its cleanup handler, for the index of the first failing
copy. -/
theorem copyCtor_error_inv (env : Nat → Bool) (k p : Nat) (other : vector α)
    (nc : Nat) (evs : List Ev) (h : copyCtor env k p other nc = Except.error evs) :
    ∃ i, i < other.size ∧ env (k + i) = true ∧ (∀ j, j < i → env (k + j) = false) ∧
      evs = Ev.alloc (p + 1) :: ((List.range i).map Ev.construct ++
        ((List.range i).reverse.map Ev.destroy ++ [Ev.free (p + 1)])) := by
  by_cases hnc : nc = 0
  · rw [copyCtor, if_pos hnc] at h; simp at h
  · rw [copyCtor, if_neg hnc] at h
    cases hc : copyElems env k other.data_ with
    | ok r => obtain ⟨ys, k3⟩ := r; rw [hc] at h; simp at h
    | error i =>
      obtain ⟨h1, h2, h3⟩ := copyElems_error env other.data_ k i hc
      rw [hc] at h
      simp only [Except.error.injEq] at h
      exact ⟨i, h1, h2, h3, h.symm⟩

end vector

/-- The argument of `push_back(T value)` (and of `insert(pos, const T& value)`,
which forwards it to `push_back`): either a value independent of the
container, or a reference to the container's own element at index `i` — the
push-from-self case.  Because the parameter of `push_back` is taken by value,
it is copy-constructed from the argument at the call boundary, before the
body runs, so a reference argument is read in the pre-call state of the
container. -/
inductive Arg (α : Type) where
  | val (x : α)
  | ref (i : Nat)

/-- The value the by-value parameter of `push_back` receives: a `ref i`
argument denotes the element at index `i` of the container at the moment of
the call (reading an out-of-range index is undefined behavior in the source;
the model returns `default`). -/
def Arg.resolve {α : Type} [Inhabited α] (v : vector α) : Arg α → α
  | Arg.val x => x
  | Arg.ref i => v.data_.getD i default

namespace vector

variable {α : Type}

/-- Model of `void push_back(T value)`.

The fallible element operations of one call, in order:
  0. the copy (or move) construction of the by-value parameter `value` from
     the caller's argument — operation number `k`; if it fails, the body never
     runs and the container is untouched;
  1. if `size() < capacity()`: `new (data_ + size_) T(std::move(value))` —
     operation `k + 1`; only on success is `size_` incremented, so on failure
     the container is untouched (the slot was never counted as live);
  2. otherwise: `vector tmp(*this, new_capacity)` with
     `new_capacity = (capacity() == 0) ? 1 : capacity() * 2 + 1` — operations
     `k + 1 .. k + size()`, one copy per element, rolled back by the copying
     constructor on failure; then `tmp.push_back(std::move(value))`, a genuine
     recursive call (it move-constructs its parameter and then, `tmp` having
     spare capacity, takes the in-place branch); then `swap(tmp)`, which never
     fails.  A failure anywhere destroys the local `tmp` during unwinding and
     leaves `*this` untouched, hence `Except.error v` in every failure case. -/
def push_back [Inhabited α] (env : Nat → Bool) (k p : Nat) (v : vector α)
    (arg : Arg α) : Except (vector α) (vector α × Nat × Nat) :=
  if env k then Except.error v
  else
    let value := arg.resolve v
    if h : v.size < v.capacity_ then
      if env (k + 1) then Except.error v
      else Except.ok (⟨v.data_ ++ [value], v.capacity_, v.addr_⟩, k + 2, p)
    else
      match h2 : copyCtor env (k + 1) p v
          (if v.capacity_ = 0 then 1 else v.capacity_ * 2 + 1) with
      | Except.error _ => Except.error v
      | Except.ok (tmp, k2, p2, _) =>
        match push_back env k2 p2 tmp (Arg.val value) with
        | Except.error _ => Except.error v
        | Except.ok r => Except.ok r
termination_by v.size + 1 - v.capacity_
decreasing_by
  have hnc : (if v.capacity_ = 0 then 1 else v.capacity_ * 2 + 1) ≠ 0 := by
    split <;> omega
  obtain ⟨ht, -, -, -⟩ := copyCtor_ok_shape _ _ _ _ _ hnc _ _ _ _ h2
  have h1 : tmp.size = v.size := by rw [ht]; rfl
  have h3 : tmp.capacity_ = if v.capacity_ = 0 then 1 else v.capacity_ * 2 + 1 := by
    rw [ht]
  rw [h1, h3]
  simp only [size] at h ⊢
  split <;> omega

/-- `void pop_back()`: `back().~T(); size_--;` — destroy the last live
element; block and capacity untouched.  Destructors never fail. -/
def pop_back (v : vector α) : vector α :=
  ⟨v.data_.dropLast, v.capacity_, v.addr_⟩

/-- `void clear() noexcept`: pop every live element from the back, then
`size_ = 0`.  Block and capacity are preserved. -/
def clear (v : vector α) : vector α :=
  ⟨[], v.capacity_, v.addr_⟩

/-- `void swap(vector& other) noexcept`: exchange the three members of the two
containers; no element is touched. -/
def swap (a b : vector α) : vector α × vector α := (b, a)

/-- Move construction `vector(vector&& other)`: take the three members of the
source and reset the source to the default state; no element is touched. -/
def moveCtor (other : vector α) : vector α × vector α :=
  (other, ⟨[], 0, 0⟩)

/-- Copy assignment `vector& operator=(const vector& other)`.  `self` models
the address test `&other == this`; when it holds (the two arguments are the
same object, so `lhs = rhs`) the operation returns at once — before any
allocation or element operation, witnessed by the unchanged counters.
Otherwise `vector(other).swap(*this)`: a full copy of the right-hand side is
built by the copy constructor (the copying constructor at capacity
`other.size()`) and swapped into `*this`; the temporary, now holding the old
contents, is destroyed.  If the copy fails, the exception propagates with
`*this` untouched. -/
def assign (env : Nat → Bool) (k p : Nat) (lhs rhs : vector α) (self : Bool) :
    Except (vector α) (vector α × Nat × Nat) :=
  if self then Except.ok (lhs, k, p)
  else
    match copyCtor env k p rhs rhs.size with
    | Except.error _ => Except.error lhs
    | Except.ok (tmp, k2, p2, _) => Except.ok (tmp, k2, p2)

/-- Move assignment `vector& operator=(vector&& other)`: a no-op on self-move;
otherwise `vector{}.swap(*this); other.swap(*this);` — the left-hand side
takes the source's members and the source is left empty (its old contents,
parked in the temporary, are destroyed).  Returns (new lhs, new rhs). -/
def move_assign (lhs rhs : vector α) (self : Bool) : vector α × vector α :=
  if self then (lhs, rhs) else (rhs, ⟨[], 0, 0⟩)

/-- `void reserve(size_t new_capacity)`: if `new_capacity > capacity()`,
`vector(*this, new_capacity).swap(*this)`; otherwise nothing happens (not
even an element operation — the counters are returned unchanged). -/
def reserve (env : Nat → Bool) (k p : Nat) (v : vector α) (new_capacity : Nat) :
    Except (vector α) (vector α × Nat × Nat) :=
  if new_capacity > v.capacity_ then
    match copyCtor env k p v new_capacity with
    | Except.error _ => Except.error v
    | Except.ok (tmp, k2, p2, _) => Except.ok (tmp, k2, p2)
  else Except.ok (v, k, p)

/-- `void shrink_to_fit()`: if `size() != capacity()`,
`vector(*this, size()).swap(*this)`; otherwise a no-op. -/
def shrink_to_fit (env : Nat → Bool) (k p : Nat) (v : vector α) :
    Except (vector α) (vector α × Nat × Nat) :=
  if v.size ≠ v.capacity_ then
    match copyCtor env k p v v.size with
    | Except.error _ => Except.error v
    | Except.ok (tmp, k2, p2, _) => Except.ok (tmp, k2, p2)
  else Except.ok (v, k, p)

end vector

/-- `std::swap` / `std::iter_swap` applied to the elements at positions `i`
and `j` of the block (element swaps never fail).  Touching a position outside
the live range is undefined behavior in the source; the model leaves the list
unchanged in that case (the operations below only ever swap live positions on
valid input). -/
def swapAt {α : Type} (d : List α) (i j : Nat) : List α :=
  match d[i]?, d[j]? with
  | some x, some y => (d.set i y).set j x
  | _, _ => d

namespace vector

variable {α : Type}

/-- The shifting loop of `insert`:
`for (iterator ptr = end() - 1; ptr != data() + index; ptr--)
   std::iter_swap(ptr, ptr - 1);`
— with `ptr` represented as the offset from `data()`.  Swaps the element at
the cursor leftward until the cursor reaches `index` (a cursor that reaches
slot 0 without meeting `index` would be undefined behavior in the source; the
model stops there). -/
def insertLoop (index : Nat) : Nat → List α → List α
  | 0, d => d
  | q + 1, d => if q + 1 = index then d else insertLoop index q (swapAt d q (q + 1))

/-- `iterator insert(const_iterator pos, const T& value)` with
`pos - begin() = index` computed at entry.  Forwards `value` to `push_back`
(under the full `push_back` contract, including growth and failure), then
rotates the appended element leftward to slot `index` with non-failing swaps,
and returns `data() + index`, modelled as the index itself. -/
def insert [Inhabited α] (env : Nat → Bool) (k p : Nat) (v : vector α)
    (index : Nat) (arg : Arg α) :
    Except (vector α) ((vector α × Nat) × Nat × Nat) :=
  match push_back env k p v arg with
  | Except.error w => Except.error w
  | Except.ok (w, k2, p2) =>
      Except.ok ((⟨insertLoop index (w.size - 1) w.data_, w.capacity_, w.addr_⟩, index),
        k2, p2)

/-- The shifting loop of `erase(first, last)`:
`for (size_t i = 0; i < size() - l_index; i++)
   std::swap(data_[l_index + i], data_[f_index + i]);`
— modelled with the two cursors advancing and the remaining iteration count
(`m` counts the iterations still to perform). -/
def eraseSwaps : Nat → Nat → Nat → List α → List α
  | _, _, 0, d => d
  | f, l, m + 1, d => eraseSwaps (f + 1) (l + 1) m (swapAt d l f)

/-- The destruction loop at the end of `erase(first, last)`: `pop_back()`
applied `n` times. -/
def popN : Nat → List α → List α
  | 0, d => d
  | n + 1, d => popN n d.dropLast

/-- `iterator erase(const_iterator first, const_iterator last)` with
`f_index = first - begin()`, `l_index = last - begin()` and
`diff = last - first` computed at entry: shift the surviving suffix down into
the hole by swaps, then pop the `diff` trailing duplicates.  Only element
swaps and destructions are performed, so the operation never fails and never
touches the block or `capacity_`.  Returns the new state and the returned
iterator `begin() + f_index`, modelled as the index. -/
def erase (v : vector α) (f_index l_index : Nat) : vector α × Nat :=
  let diff := l_index - f_index
  let d := eraseSwaps f_index l_index (v.size - l_index) v.data_
  (⟨popN diff d, v.capacity_, v.addr_⟩, f_index)

/-- `iterator erase(const_iterator pos)`: `erase(pos, pos + 1)`. -/
def erase1 (v : vector α) (pos : Nat) : vector α × Nat :=
  erase v pos (pos + 1)

/-- When spare capacity exists, `push_back` performs exactly two fallible
operations (the parameter construction and the in-place construction) and on
success appends in place. -/
theorem push_back_fast [Inhabited α] (env : Nat → Bool) (k p : Nat)
    (v : vector α) (arg : Arg α) (hlt : v.size < v.capacity_) :
    push_back env k p v arg =
      if env k then Except.error v
      else if env (k + 1) then Except.error v
      else Except.ok (⟨v.data_ ++ [arg.resolve v], v.capacity_, v.addr_⟩, k + 2, p) := by
  rw [push_back]
  by_cases h0 : env k
  · simp [h0]
  · simp [h0, hlt]

/-- Strong exception safety of `push_back`: on any failure, the state at
which the exception leaves the call is the pre-call state — every field (live
elements, capacity, block address) is unchanged. -/
theorem push_back_error_eq [Inhabited α] {env : Nat → Bool} {k p : Nat}
    {v : vector α} {arg : Arg α} {w : vector α}
    (h : push_back env k p v arg = Except.error w) : w = v := by
  rw [push_back] at h
  by_cases h0 : env k
  · simp only [h0, if_true] at h
    exact (Except.error.inj h).symm
  · simp only [h0, if_false, Bool.false_eq_true] at h
    split at h
    · split at h
      · exact (Except.error.inj h).symm
      · exact absurd h (by simp)
    · split at h
      · exact (Except.error.inj h).symm
      · split at h
        · exact (Except.error.inj h).symm
        · exact absurd h (by simp)

/-- Success behavior of `push_back` on a container satisfying the length
invariant: the result is the old element list with the resolved argument
appended, the capacity is unchanged when spare capacity existed and otherwise
is `(capacity() == 0) ? 1 : capacity() * 2 + 1`, and the block is reused
(same address) exactly in the spare-capacity case, a fresh block being used
otherwise. -/
theorem push_back_ok_spec [Inhabited α] {env : Nat → Bool} {k p : Nat}
    {v : vector α} {arg : Arg α} {w : vector α} {k2 p2 : Nat}
    (hInv : v.size ≤ v.capacity_)
    (h : push_back env k p v arg = Except.ok (w, k2, p2)) :
    w.data_ = v.data_ ++ [arg.resolve v] ∧
      w.capacity_ = (if v.size < v.capacity_ then v.capacity_
        else if v.capacity_ = 0 then 1 else v.capacity_ * 2 + 1) ∧
      w.addr_ = (if v.size < v.capacity_ then v.addr_ else p + 1) := by
  by_cases hlt : v.size < v.capacity_
  · rw [push_back_fast env k p v arg hlt] at h
    by_cases h0 : env k
    · simp [h0] at h
    · by_cases h1 : env (k + 1)
      · simp [h0, h1] at h
      · simp only [h0, h1, if_false, Bool.false_eq_true] at h
        obtain ⟨hw, -, -⟩ := Prod.mk.inj (Except.ok.inj h)
        rw [← hw]
        simp [hlt]
  · rw [push_back] at h
    by_cases h0 : env k
    · simp [h0] at h
    · simp only [h0, if_false, Bool.false_eq_true, dif_neg hlt] at h
      have hsz : v.size = v.capacity_ := by omega
      set nc := (if v.capacity_ = 0 then 1 else v.capacity_ * 2 + 1) with hncdef
      have hnc : nc ≠ 0 := by rw [hncdef]; split <;> omega
      split at h
      · exact absurd h (by simp)
      · rename_i tmp k3 p3 evs h2
        obtain ⟨ht, hk3, hp3, -⟩ := copyCtor_ok_shape _ _ _ _ _ hnc _ _ _ _ h2
        have htmplt : tmp.size < tmp.capacity_ := by
          rw [ht]
          simp only [size]
          rw [hncdef]
          simp only [size] at hsz
          split <;> omega
        rw [push_back_fast env k3 p3 tmp (Arg.val (arg.resolve v)) htmplt] at h
        by_cases h3 : env k3
        · simp [h3] at h
        · by_cases h4 : env (k3 + 1)
          · simp [h3, h4] at h
          · simp only [h3, h4, if_false, Bool.false_eq_true] at h
            obtain ⟨hw, -, -⟩ := Prod.mk.inj (Except.ok.inj h)
            rw [← hw, ht]
            simp [hlt, Arg.resolve, hncdef]

end vector

theorem swapAt_length {α : Type} (d : List α) (i j : Nat) :
    (swapAt d i j).length = d.length := by
  unfold swapAt
  split <;> simp

theorem getElem?_swapAt {α : Type} {d : List α} {i j : Nat}
    (hi : i < d.length) (hj : j < d.length) (n : Nat) :
    (swapAt d i j)[n]? = if n = j then d[i]? else if n = i then d[j]? else d[n]? := by
  cases hix : d[i]? with
  | none => exact absurd (List.getElem?_eq_none_iff.mp hix) (by omega)
  | some x =>
    cases hjx : d[j]? with
    | none => exact absurd (List.getElem?_eq_none_iff.mp hjx) (by omega)
    | some y =>
      unfold swapAt
      rw [hix, hjx]
      by_cases hnj : n = j
      · subst hnj
        rw [if_pos rfl, List.getElem?_set_self (by simp [hj])]
      · rw [if_neg hnj, List.getElem?_set_ne (fun hh => hnj hh.symm)]
        by_cases hni : n = i
        · subst hni
          rw [if_pos rfl, List.getElem?_set_self (by simp [hi])]
        · rw [if_neg hni, List.getElem?_set_ne (fun hh => hni hh.symm)]

theorem swapAt_cons_succ {α : Type} (c : α) (d : List α) (i j : Nat) :
    swapAt (c :: d) (i + 1) (j + 1) = c :: swapAt d i j := by
  unfold swapAt
  simp only [List.getElem?_cons_succ]
  cases d[i]? <;> cases d[j]? <;> simp

theorem swapAt_append_cons_cons {α : Type} :
    ∀ (P : List α) (u w : α) (S : List α),
      swapAt (P ++ u :: w :: S) P.length (P.length + 1) = P ++ w :: u :: S := by
  intro P
  induction P with
  | nil => intro u w S; simp [swapAt]
  | cons c P ih =>
    intro u w S
    simp only [List.cons_append, List.length_cons]
    rw [swapAt_cons_succ, ih]

theorem insertLoop_spec {α : Type} :
    ∀ (A : List α) (x : α) (B : List α) (index : Nat), index ≤ A.length →
      vector.insertLoop index A.length (A ++ x :: B) =
        A.take index ++ x :: (A.drop index ++ B) := by
  intro A
  induction A using List.reverseRecOn with
  | nil =>
    intro x B index h
    have h0 : index = 0 := by simpa using h
    subst h0
    simp [vector.insertLoop]
  | append_singleton A a ih =>
    intro x B index h
    rw [List.length_append, List.length_singleton]
    by_cases hidx : A.length + 1 = index
    · rw [vector.insertLoop, if_pos hidx, ← hidx]
      have htk : List.take (A.length + 1) (A ++ [a]) = A ++ [a] :=
        List.take_of_length_le (by simp)
      simp [htk]
    · have hle : index ≤ A.length := by
        rw [List.length_append, List.length_singleton] at h; omega
      rw [vector.insertLoop, if_neg hidx]
      have harr : (A ++ [a]) ++ x :: B = A ++ a :: x :: B := by simp
      rw [harr, swapAt_append_cons_cons, show A ++ x :: a :: B = A ++ x :: (a :: B) from rfl,
        ih x (a :: B) index hle,
        List.take_append_of_le_length hle, List.drop_append_of_le_length hle]
      simp

theorem eraseSwaps_length {α : Type} :
    ∀ (m f l : Nat) (d : List α), (vector.eraseSwaps f l m d).length = d.length := by
  intro m
  induction m with
  | zero => intro f l d; rfl
  | succ m ih =>
    intro f l d
    rw [vector.eraseSwaps, ih, swapAt_length]

theorem eraseSwaps_getElem? {α : Type} :
    ∀ (m f l : Nat) (d : List α), f ≤ l → l + m = d.length →
      ∀ n, n < f + m →
        (vector.eraseSwaps f l m d)[n]? =
          if n < f then d[n]? else d[n + (l - f)]? := by
  intro m
  induction m with
  | zero =>
    intro f l d hfl hld n hn
    rw [vector.eraseSwaps, if_pos (by omega)]
  | succ m ih =>
    intro f l d hfl hld n hn
    have hl : l < d.length := by omega
    have hf : f < d.length := by omega
    have hswap := getElem?_swapAt hl hf
    have hlen : (swapAt d l f).length = d.length := swapAt_length d l f
    rw [vector.eraseSwaps]
    rw [ih (f + 1) (l + 1) (swapAt d l f) (by omega) (by omega) n (by omega)]
    by_cases hnf : n < f
    · rw [if_pos (by omega), if_pos hnf, hswap n,
        if_neg (by omega), if_neg (by omega)]
    · by_cases hnf2 : n = f
      · subst hnf2
        rw [if_pos (by omega), if_neg (by omega), hswap n, if_pos rfl]
        congr 1
        omega
      · rw [if_neg (by omega), if_neg (by omega),
          show n + (l + 1 - (f + 1)) = n + (l - f) from by omega, hswap (n + (l - f)),
          if_neg (by omega), if_neg (by omega)]

theorem popN_eq_take {α : Type} :
    ∀ (n : Nat) (d : List α), vector.popN n d = d.take (d.length - n) := by
  intro n
  induction n with
  | zero => intro d; rw [vector.popN, Nat.sub_zero, List.take_length]
  | succ n ih =>
    intro d
    rw [vector.popN, ih, List.dropLast_eq_take, List.take_take, List.length_take]
    congr 1
    omega

namespace vector

variable {α : Type}

/-- Behavior of `erase(first, last)` on a valid range: the elements before
`f_index` stay in place and the elements from `l_index` on are shifted down to
follow them; exactly `l_index - f_index` elements are removed; capacity and
the block address are untouched; the returned iterator is
`begin() + f_index`. -/
theorem erase_spec (v : vector α) (f l : Nat) (hf : f ≤ l) (hl : l ≤ v.size) :
    (erase v f l).1.data_ = v.data_.take f ++ v.data_.drop l ∧
      (erase v f l).1.capacity_ = v.capacity_ ∧
      (erase v f l).1.addr_ = v.addr_ ∧
      (erase v f l).2 = f := by
  refine ⟨?_, rfl, rfl, rfl⟩
  show popN (l - f) (eraseSwaps f l (v.size - l) v.data_) = _
  have hn : v.data_.length = v.size := rfl
  have hlenE : (eraseSwaps f l (v.size - l) v.data_).length = v.data_.length :=
    eraseSwaps_length _ _ _ _
  rw [popN_eq_take, hlenE, hn]
  apply List.ext_getElem?
  intro q
  by_cases hq : q < f + (v.size - l)
  · rw [List.getElem?_take_of_lt (by omega),
      eraseSwaps_getElem? (v.size - l) f l v.data_ hf (by omega) q hq]
    by_cases hqf : q < f
    · rw [if_pos hqf,
        List.getElem?_append_left (by rw [List.length_take]; omega),
        List.getElem?_take_of_lt hqf]
    · rw [if_neg hqf,
        List.getElem?_append_right (by rw [List.length_take]; omega),
        List.getElem?_drop, List.length_take]
      congr 1
      omega
  · rw [List.getElem?_eq_none (by rw [List.length_take, hlenE, hn]; omega),
      List.getElem?_eq_none (by
        rw [List.length_append, List.length_take, List.length_drop, hn]; omega)]

/-- Behavior of `insert(pos, value)` on success, for a valid position on a
container satisfying the length invariant: the resolved argument lands at slot
`index`, everything previously at `[index, size)` moves up one slot in order,
everything before stays in place, and the returned iterator is
`begin() + index` for the index computed at entry. -/
theorem insert_ok_spec [Inhabited α] {env : Nat → Bool} {k p : Nat}
    {v : vector α} {index : Nat} {arg : Arg α} {w : vector α} {r k2 p2 : Nat}
    (hInv : v.size ≤ v.capacity_) (hidx : index ≤ v.size)
    (h : insert env k p v index arg = Except.ok ((w, r), k2, p2)) :
    w.data_ = v.data_.take index ++ arg.resolve v :: v.data_.drop index ∧
      r = index := by
  rw [insert] at h
  cases hb : push_back env k p v arg with
  | error w0 => rw [hb] at h; simp at h
  | ok res =>
    obtain ⟨w0, k3, p3⟩ := res
    rw [hb] at h
    simp only [Except.ok.injEq, Prod.mk.injEq] at h
    obtain ⟨⟨hw, hr⟩, -, -⟩ := h
    obtain ⟨hdata, -, -⟩ := push_back_ok_spec hInv hb
    have hsz : w0.size - 1 = v.data_.length := by
      show w0.data_.length - 1 = _
      rw [hdata]
      simp
    refine ⟨?_, hr.symm⟩
    rw [← hw]
    show insertLoop index (w0.size - 1) w0.data_ = _
    rw [hsz, hdata, show (v.data_ ++ [arg.resolve v]) = v.data_ ++ arg.resolve v :: [] from rfl,
      insertLoop_spec v.data_ (arg.resolve v) [] index hidx]
    simp

/-- Failure of `insert` is failure of its `push_back` step, and propagates
with the container untouched. -/
theorem insert_error_eq [Inhabited α] {env : Nat → Bool} {k p : Nat}
    {v : vector α} {index : Nat} {arg : Arg α} {w : vector α}
    (h : insert env k p v index arg = Except.error w) : w = v := by
  rw [insert] at h
  cases hb : push_back env k p v arg with
  | error w0 =>
    rw [hb] at h
    cases h
    exact push_back_error_eq hb
  | ok res =>
    obtain ⟨w0, k3, p3⟩ := res
    rw [hb] at h
    simp at h

/-- The representation invariant of the container: the live prefix fits in the
block (`length <= capacity`), and a capacity-0 container owns no block
(`storage` is null) and holds no element. -/
def Inv (v : vector α) : Prop :=
  v.size ≤ v.capacity_ ∧ (v.capacity_ = 0 → v.addr_ = 0 ∧ v.size = 0)

theorem Inv_nil : Inv (nil : vector α) := by
  constructor
  · exact Nat.le_refl 0
  · intro; exact ⟨rfl, rfl⟩

theorem copyCtor_inv {env : Nat → Bool} {k p : Nat} {other : vector α}
    {nc : Nat} {t : vector α} {k2 p2 : Nat} {evs : List Ev}
    (hnc : other.size ≤ nc)
    (h : copyCtor env k p other nc = Except.ok (t, k2, p2, evs)) : Inv t := by
  by_cases h0 : nc = 0
  · rw [copyCtor, if_pos h0] at h
    obtain ⟨ht, -⟩ := Prod.mk.inj (Except.ok.inj h)
    rw [← ht]
    exact Inv_nil
  · obtain ⟨ht, -, -, -⟩ := copyCtor_ok_shape _ _ _ _ _ h0 _ _ _ _ h
    rw [ht]
    exact ⟨hnc, fun hc => absurd hc h0⟩

theorem push_back_inv [Inhabited α] {env : Nat → Bool} {k p : Nat}
    {v : vector α} {arg : Arg α} {w : vector α} {k2 p2 : Nat}
    (hv : Inv v) (h : push_back env k p v arg = Except.ok (w, k2, p2)) : Inv w := by
  obtain ⟨hdata, hcap, -⟩ := push_back_ok_spec hv.1 h
  have hsz : w.size = v.size + 1 := by
    show w.data_.length = _
    rw [hdata]
    simp [size]
  by_cases hlt : v.size < v.capacity_
  · have hc : w.capacity_ = v.capacity_ := by rw [hcap, if_pos hlt]
    exact ⟨by rw [hsz, hc]; omega, fun h0 => absurd (hc.symm.trans h0) (by omega)⟩
  · have hsize : v.size = v.capacity_ := Nat.le_antisymm hv.1 (Nat.le_of_not_lt hlt)
    by_cases hc0 : v.capacity_ = 0
    · have hc : w.capacity_ = 1 := by rw [hcap, if_neg hlt, if_pos hc0]
      exact ⟨by rw [hsz, hc]; omega, fun h0 => absurd (hc.symm.trans h0) (by omega)⟩
    · have hc : w.capacity_ = v.capacity_ * 2 + 1 := by rw [hcap, if_neg hlt, if_neg hc0]
      exact ⟨by rw [hsz, hc]; omega, fun h0 => absurd (hc.symm.trans h0) (by omega)⟩

theorem assign_inv [Inhabited α] {env : Nat → Bool} {k p : Nat}
    {a b : vector α} {self : Bool} {w : vector α} {k2 p2 : Nat}
    (ha : Inv a) (h : assign env k p a b self = Except.ok (w, k2, p2)) : Inv w := by
  rw [assign] at h
  by_cases hself : self
  · rw [if_pos (by simp [hself])] at h
    obtain ⟨hw, -⟩ := Prod.mk.inj (Except.ok.inj h)
    rw [← hw]
    exact ha
  · rw [if_neg (by simp [hself])] at h
    cases hc : copyCtor env k p b b.size with
    | error e => rw [hc] at h; simp at h
    | ok res =>
      obtain ⟨t, k3, p3, evs⟩ := res
      rw [hc] at h
      obtain ⟨hw, -⟩ := Prod.mk.inj (Except.ok.inj h)
      rw [← hw]
      exact copyCtor_inv (Nat.le_refl _) hc

theorem reserve_inv {env : Nat → Bool} {k p : Nat} {v : vector α}
    {n : Nat} {w : vector α} {k2 p2 : Nat}
    (hv : Inv v) (h : reserve env k p v n = Except.ok (w, k2, p2)) : Inv w := by
  rw [reserve] at h
  by_cases hgt : n > v.capacity_
  · rw [if_pos hgt] at h
    cases hc : copyCtor env k p v n with
    | error e => rw [hc] at h; simp at h
    | ok res =>
      obtain ⟨t, k3, p3, evs⟩ := res
      rw [hc] at h
      obtain ⟨hw, -⟩ := Prod.mk.inj (Except.ok.inj h)
      rw [← hw]
      exact copyCtor_inv (Nat.le_trans hv.1 (Nat.le_of_lt hgt)) hc
  · rw [if_neg hgt] at h
    obtain ⟨hw, -⟩ := Prod.mk.inj (Except.ok.inj h)
    rw [← hw]
    exact hv

theorem shrink_inv {env : Nat → Bool} {k p : Nat} {v : vector α}
    {w : vector α} {k2 p2 : Nat}
    (hv : Inv v) (h : shrink_to_fit env k p v = Except.ok (w, k2, p2)) : Inv w := by
  rw [shrink_to_fit] at h
  by_cases hne : v.size ≠ v.capacity_
  · rw [if_pos hne] at h
    cases hc : copyCtor env k p v v.size with
    | error e => rw [hc] at h; simp at h
    | ok res =>
      obtain ⟨t, k3, p3, evs⟩ := res
      rw [hc] at h
      obtain ⟨hw, -⟩ := Prod.mk.inj (Except.ok.inj h)
      rw [← hw]
      exact copyCtor_inv (Nat.le_refl _) hc
  · rw [if_neg hne] at h
    obtain ⟨hw, -⟩ := Prod.mk.inj (Except.ok.inj h)
    rw [← hw]
    exact hv

theorem pop_back_inv {v : vector α} (hv : Inv v) : Inv (pop_back v) := by
  constructor
  · show v.data_.dropLast.length ≤ _
    rw [List.length_dropLast]
    exact Nat.le_trans (Nat.sub_le _ _) hv.1
  · intro hc
    obtain ⟨ha, hs⟩ := hv.2 hc
    refine ⟨ha, ?_⟩
    have hs' : v.data_.length = 0 := hs
    show v.data_.dropLast.length = 0
    rw [List.length_dropLast]
    omega

theorem clear_inv {v : vector α} (hv : Inv v) : Inv (clear v) := by
  constructor
  · exact Nat.zero_le _
  · intro hc
    exact ⟨(hv.2 hc).1, rfl⟩

theorem erase_inv {v : vector α} {f l : Nat} (hv : Inv v) : Inv (erase v f l).1 := by
  have hsz : (erase v f l).1.size ≤ v.size := by
    show (popN (l - f) (eraseSwaps f l (v.size - l) v.data_)).length ≤ _
    rw [popN_eq_take, List.length_take, eraseSwaps_length]
    simp [size]
  constructor
  · exact Nat.le_trans hsz hv.1
  · intro hc
    obtain ⟨ha, hs⟩ := hv.2 hc
    exact ⟨ha, by omega⟩

theorem insertLoop_length {index : Nat} :
    ∀ (q : Nat) (d : List α), (insertLoop index q d).length = d.length := by
  intro q
  induction q with
  | zero => intro d; rfl
  | succ q ih =>
    intro d
    rw [insertLoop]
    split
    · rfl
    · rw [ih, swapAt_length]

theorem insert_inv [Inhabited α] {env : Nat → Bool} {k p : Nat}
    {v : vector α} {index : Nat} {arg : Arg α} {w : vector α} {r k2 p2 : Nat}
    (hv : Inv v) (h : insert env k p v index arg = Except.ok ((w, r), k2, p2)) :
    Inv w := by
  rw [insert] at h
  cases hb : push_back env k p v arg with
  | error w0 => rw [hb] at h; simp at h
  | ok res =>
    obtain ⟨w0, k3, p3⟩ := res
    rw [hb] at h
    simp only [Except.ok.injEq, Prod.mk.injEq] at h
    obtain ⟨⟨hw, -⟩, -, -⟩ := h
    have hw0 : Inv w0 := push_back_inv hv hb
    rw [← hw]
    constructor
    · show (insertLoop index (w0.size - 1) w0.data_).length ≤ w0.capacity_
      rw [insertLoop_length]
      exact hw0.1
    · intro hc
      obtain ⟨ha, hs⟩ := hw0.2 hc
      refine ⟨ha, ?_⟩
      show (insertLoop index (w0.size - 1) w0.data_).length = 0
      rw [insertLoop_length]
      exact hs

/-- Strong exception safety of copy assignment: a failure leaves the
left-hand side exactly as it was. -/
theorem assign_error_eq {env : Nat → Bool} {k p : Nat} {a b : vector α}
    {self : Bool} {w : vector α}
    (h : assign env k p a b self = Except.error w) : w = a := by
  rw [assign] at h
  by_cases hself : self
  · rw [if_pos (by simp [hself])] at h; simp at h
  · rw [if_neg (by simp [hself])] at h
    cases hc : copyCtor env k p b b.size with
    | error e => rw [hc] at h; exact (Except.error.inj h).symm
    | ok res => obtain ⟨t, k3, p3, evs⟩ := res; rw [hc] at h; simp at h

/-- Strong exception safety of `reserve`. -/
theorem reserve_error_eq {env : Nat → Bool} {k p : Nat} {v : vector α}
    {n : Nat} {w : vector α}
    (h : reserve env k p v n = Except.error w) : w = v := by
  rw [reserve] at h
  by_cases hgt : n > v.capacity_
  · rw [if_pos hgt] at h
    cases hc : copyCtor env k p v n with
    | error e => rw [hc] at h; exact (Except.error.inj h).symm
    | ok res => obtain ⟨t, k3, p3, evs⟩ := res; rw [hc] at h; simp at h
  · rw [if_neg hgt] at h; simp at h

/-- Strong exception safety of `shrink_to_fit`. -/
theorem shrink_error_eq {env : Nat → Bool} {k p : Nat} {v : vector α}
    {w : vector α}
    (h : shrink_to_fit env k p v = Except.error w) : w = v := by
  rw [shrink_to_fit] at h
  by_cases hne : v.size ≠ v.capacity_
  · rw [if_pos hne] at h
    cases hc : copyCtor env k p v v.size with
    | error e => rw [hc] at h; exact (Except.error.inj h).symm
    | ok res => obtain ⟨t, k3, p3, evs⟩ := res; rw [hc] at h; simp at h
  · rw [if_neg hne] at h; simp at h

/-- The container states reachable from the default-constructed (empty) state
by any sequence of the public operations, including calls that fail and roll
back (the `..._error` constructors admit the state in which a failed call
leaves its receiver).  Operations on two containers (`swap`, assignment, the
copy and move constructors) may draw either operand from any reachable state;
operations whose sources require a valid position/range carry that
precondition (an invalid one is undefined behavior in the source). -/
inductive Reachable [Inhabited α] : vector α → Prop
  | default_state : Reachable nil
  | copy_ctor {s w : vector α} {env : Nat → Bool} {k p k2 p2 : Nat} {evs : List Ev} :
      Reachable s → copyCtor env k p s s.size = Except.ok (w, k2, p2, evs) →
      Reachable w
  | move_ctor_dst {s : vector α} : Reachable s → Reachable (moveCtor s).1
  | move_ctor_src {s : vector α} : Reachable s → Reachable (moveCtor s).2
  | assign_ok {a b w : vector α} {env : Nat → Bool} {k p k2 p2 : Nat} {self : Bool} :
      Reachable a → Reachable b →
      assign env k p a b self = Except.ok (w, k2, p2) → Reachable w
  | assign_error {a b w : vector α} {env : Nat → Bool} {k p : Nat} {self : Bool} :
      Reachable a → Reachable b →
      assign env k p a b self = Except.error w → Reachable w
  | move_assign_dst {a b : vector α} {self : Bool} :
      Reachable a → Reachable b → Reachable (move_assign a b self).1
  | move_assign_src {a b : vector α} {self : Bool} :
      Reachable a → Reachable b → Reachable (move_assign a b self).2
  | push_ok {v w : vector α} {env : Nat → Bool} {k p k2 p2 : Nat} {arg : Arg α} :
      Reachable v → push_back env k p v arg = Except.ok (w, k2, p2) → Reachable w
  | push_error {v w : vector α} {env : Nat → Bool} {k p : Nat} {arg : Arg α} :
      Reachable v → push_back env k p v arg = Except.error w → Reachable w
  | pop {v : vector α} : Reachable v → 0 < v.size → Reachable (pop_back v)
  | clear_state {v : vector α} : Reachable v → Reachable (clear v)
  | swap_fst {a b : vector α} : Reachable a → Reachable b → Reachable (swap a b).1
  | swap_snd {a b : vector α} : Reachable a → Reachable b → Reachable (swap a b).2
  | reserve_ok {v w : vector α} {env : Nat → Bool} {k p n k2 p2 : Nat} :
      Reachable v → reserve env k p v n = Except.ok (w, k2, p2) → Reachable w
  | reserve_error {v w : vector α} {env : Nat → Bool} {k p n : Nat} :
      Reachable v → reserve env k p v n = Except.error w → Reachable w
  | shrink_ok {v w : vector α} {env : Nat → Bool} {k p k2 p2 : Nat} :
      Reachable v → shrink_to_fit env k p v = Except.ok (w, k2, p2) → Reachable w
  | shrink_error {v w : vector α} {env : Nat → Bool} {k p : Nat} :
      Reachable v → shrink_to_fit env k p v = Except.error w → Reachable w
  | insert_ok {v w : vector α} {env : Nat → Bool} {k p index r k2 p2 : Nat} {arg : Arg α} :
      Reachable v → index ≤ v.size →
      insert env k p v index arg = Except.ok ((w, r), k2, p2) → Reachable w
  | insert_error {v w : vector α} {env : Nat → Bool} {k p index : Nat} {arg : Arg α} :
      Reachable v → index ≤ v.size →
      insert env k p v index arg = Except.error w → Reachable w
  | erase_range {v : vector α} {f l : Nat} :
      Reachable v → f ≤ l → l ≤ v.size → Reachable (erase v f l).1
  | erase_one {v : vector α} {pos : Nat} :
      Reachable v → pos < v.size → Reachable (erase1 v pos).1

/-- Every reachable state satisfies the representation invariant. -/
theorem reachable_inv [Inhabited α] {v : vector α} (h : Reachable v) : Inv v := by
  induction h with
  | default_state => exact Inv_nil
  | copy_ctor hs hc ih => exact copyCtor_inv (Nat.le_refl _) hc
  | move_ctor_dst hs ih => exact ih
  | move_ctor_src hs ih => exact Inv_nil
  | assign_ok ha hb hc iha ihb => exact assign_inv iha hc
  | assign_error ha hb hc iha ihb => rw [assign_error_eq hc]; exact iha
  | move_assign_dst ha hb iha ihb =>
    rw [move_assign]
    split
    · exact iha
    · exact ihb
  | move_assign_src ha hb iha ihb =>
    rw [move_assign]
    split
    · exact ihb
    · exact Inv_nil
  | push_ok hv hc ih => exact push_back_inv ih hc
  | push_error hv hc ih => rw [push_back_error_eq hc]; exact ih
  | pop hv hpos ih => exact pop_back_inv ih
  | clear_state hv ih => exact clear_inv ih
  | swap_fst ha hb iha ihb => exact ihb
  | swap_snd ha hb iha ihb => exact iha
  | reserve_ok hv hc ih => exact reserve_inv ih hc
  | reserve_error hv hc ih => rw [reserve_error_eq hc]; exact ih
  | shrink_ok hv hc ih => exact shrink_inv ih hc
  | shrink_error hv hc ih => rw [shrink_error_eq hc]; exact ih
  | insert_ok hv hidx hc ih => exact insert_inv ih hc
  | insert_error hv hidx hc ih => rw [insert_error_eq hc]; exact ih
  | erase_range hv hf hl ih => exact erase_inv ih
  | erase_one hv hpos ih => exact erase_inv ih

end vector

/-! ## The claims -/

/-- C1: for every container (satisfying the representation invariant) and
every argument — an independent value or, in the push-from-self case, a
reference to an element of the very container being grown, read at the call
boundary because the parameter is taken by value — `push_back` either appends
the resolved value (the size grows by one, the new element sits at the last
index, every previously stored element value is unchanged: the new element
list is the old one with the value appended), or, if any element copy/move
construction invoked during the call fails, the exception leaves the call
with the container completely unchanged in size, capacity, data pointer and
element values (`w = v`, all fields). -/
theorem claim_C1 [Inhabited α] (env : Nat → Bool) (k p : Nat) (v : vector α)
    (arg : Arg α) (hInv : vector.Inv v) :
    (∀ w k2 p2, vector.push_back env k p v arg = Except.ok (w, k2, p2) →
      w.size = v.size + 1 ∧ w.data_ = v.data_ ++ [arg.resolve v]) ∧
    (∀ w, vector.push_back env k p v arg = Except.error w → w = v) := by
  constructor
  · intro w k2 p2 h
    obtain ⟨hdata, -, -⟩ := vector.push_back_ok_spec hInv.1 h
    refine ⟨?_, hdata⟩
    show w.data_.length = v.data_.length + 1
    rw [hdata]
    simp
  · intro w h
    exact vector.push_back_error_eq h

/-- Witness for C1: pushing the container's own element 0 onto the full
container `[3]` (capacity 1) succeeds and appends the pre-call value 3; a
fault on the very first element operation leaves the container untouched. -/
theorem claim_C1_witness :
    vector.Inv (⟨[3], 1, 1⟩ : vector Nat) ∧
      ((⟨[3, 3], 3, 1⟩ : vector Nat).size = (⟨[3], 1, 1⟩ : vector Nat).size + 1 ∧
        (⟨[3, 3], 3, 1⟩ : vector Nat).data_ =
          (⟨[3], 1, 1⟩ : vector Nat).data_ ++ [(Arg.ref 0).resolve ⟨[3], 1, 1⟩]) ∧
      ((⟨[3], 1, 1⟩ : vector Nat) = ⟨[3], 1, 1⟩) := by
  have hInv : vector.Inv (⟨[3], 1, 1⟩ : vector Nat) := by
    constructor
    · exact Nat.le_refl 1
    · intro h; cases h
  refine ⟨hInv, ?_, ?_⟩
  · exact (claim_C1 (fun _ => false) 0 0 ⟨[3], 1, 1⟩ (Arg.ref 0) hInv).1 ⟨[3, 3], 3, 1⟩ 4 1
      (by simp [vector.push_back, vector.copyCtor, vector.copyElems, vector.tryCopy,
        Arg.resolve, vector.size])
  · exact (claim_C1 (fun _ => true) 0 0 ⟨[3], 1, 1⟩ (Arg.ref 0) hInv).2 ⟨[3], 1, 1⟩
      (by simp [vector.push_back])

/-- C2: a successful `push_back` performed when `size() == capacity()`
results in the new capacity `max(1, 2*old_capacity + 1)`, which equals
`2*old_capacity + 1`; in particular a capacity-0 container grows to capacity
exactly 1, and every capacity-increasing push yields
`2*previous_capacity + 1`. -/
theorem claim_C2 [Inhabited α] (env : Nat → Bool) (k p : Nat) (v : vector α)
    (arg : Arg α) (hfull : v.size = v.capacity_) :
    ∀ w k2 p2, vector.push_back env k p v arg = Except.ok (w, k2, p2) →
      w.capacity_ = max 1 (2 * v.capacity_ + 1) ∧
        w.capacity_ = 2 * v.capacity_ + 1 ∧
        (v.capacity_ = 0 → w.capacity_ = 1) := by
  intro w k2 p2 h
  obtain ⟨-, hcap, -⟩ := vector.push_back_ok_spec (Nat.le_of_eq hfull) h
  rw [if_neg (by omega)] at hcap
  by_cases hc0 : v.capacity_ = 0
  · rw [if_pos hc0] at hcap
    refine ⟨by rw [hcap, hc0]; decide, by rw [hcap, hc0], fun _ => hcap⟩
  · rw [if_neg hc0] at hcap
    refine ⟨by rw [hcap]; omega, by rw [hcap]; omega, fun hc => absurd hc hc0⟩

/-- Witness for C2: pushing onto the empty container (size 0 = capacity 0)
succeeds with new capacity 1 = max(1, 2*0+1). -/
theorem claim_C2_witness :
    (⟨[], 0, 0⟩ : vector Nat).size = (⟨[], 0, 0⟩ : vector Nat).capacity_ ∧
      (⟨[5], 1, 1⟩ : vector Nat).capacity_ = max 1 (2 * (⟨[], 0, 0⟩ : vector Nat).capacity_ + 1) ∧
      (⟨[5], 1, 1⟩ : vector Nat).capacity_ = 2 * (⟨[], 0, 0⟩ : vector Nat).capacity_ + 1 ∧
      ((⟨[], 0, 0⟩ : vector Nat).capacity_ = 0 → (⟨[5], 1, 1⟩ : vector Nat).capacity_ = 1) :=
  ⟨rfl, claim_C2 (fun _ => false) 0 0 ⟨[], 0, 0⟩ (Arg.val 5) rfl ⟨[5], 1, 1⟩ 3 1
    (by simp [vector.push_back, vector.copyCtor, vector.copyElems, vector.tryCopy,
      Arg.resolve, vector.size])⟩

/-- C3: a successful copy construction — the copying constructor called with
`new_capacity = other.size()`, as the copy constructor does — produces a
container with the source's size, capacity exactly equal to the source's size
(never over-allocated), and elements equal to the source's, copy-constructed
in increasing index order (the event trace is the allocation followed by the
constructions of indices `0, 1, ..., size-1` in that order); the source, which
the model reads only, is unchanged. -/
theorem claim_C3 (env : Nat → Bool) (k p : Nat) (s : vector α) :
    ∀ w k2 p2 evs, vector.copyCtor env k p s s.size = Except.ok (w, k2, p2, evs) →
      w.size = s.size ∧ w.capacity_ = s.size ∧ w.data_ = s.data_ ∧
        evs = (if s.size = 0 then []
          else Ev.alloc (p + 1) :: (List.range s.size).map Ev.construct) := by
  intro w k2 p2 evs h
  by_cases h0 : s.size = 0
  · rw [vector.copyCtor, if_pos h0] at h
    simp only [Except.ok.injEq, Prod.mk.injEq] at h
    obtain ⟨hw, -, -, hevs⟩ := h
    have hnil : s.data_ = [] := List.length_eq_zero.mp h0
    rw [← hw, if_pos h0, ← hevs]
    exact ⟨by rw [h0]; rfl, h0.symm, hnil.symm, rfl⟩
  · obtain ⟨hw, -, -, hevs⟩ := vector.copyCtor_ok_shape _ _ _ _ _ h0 _ _ _ _ h
    rw [hw, if_neg h0, hevs]
    exact ⟨rfl, rfl, rfl, rfl⟩

/-- Witness for C3: copying `[7, 8]` yields size 2, capacity 2, equal
elements, and the trace allocate, construct 0, construct 1. -/
theorem claim_C3_witness :
    (⟨[7, 8], 2, 1⟩ : vector Nat).size = (⟨[7, 8], 2, 9⟩ : vector Nat).size ∧
      (⟨[7, 8], 2, 1⟩ : vector Nat).capacity_ = (⟨[7, 8], 2, 9⟩ : vector Nat).size ∧
      (⟨[7, 8], 2, 1⟩ : vector Nat).data_ = (⟨[7, 8], 2, 9⟩ : vector Nat).data_ ∧
      [Ev.alloc 1, Ev.construct 0, Ev.construct 1] =
        (if (⟨[7, 8], 2, 9⟩ : vector Nat).size = 0 then []
          else Ev.alloc 1 :: (List.range (⟨[7, 8], 2, 9⟩ : vector Nat).size).map Ev.construct) :=
  claim_C3 (fun _ => false) 0 0 ⟨[7, 8], 2, 9⟩ ⟨[7, 8], 2, 1⟩ 2 1
    [Ev.alloc 1, Ev.construct 0, Ev.construct 1]
    (by simp [vector.copyCtor, vector.copyElems, vector.tryCopy, vector.size,
      List.range_succ])

/-- C4: if, during copy construction, the copy of the element at index `i` is
the one that fails (no earlier operation failed), the constructor fails — the
exception propagates to the caller as the `Except.error` result — and the
cleanup it performs on the new block is exactly: the constructions of indices
`0 .. i-1` in increasing order, then their destructions in reverse index
order, then the release of the block, so nothing leaks; the source, which the
model reads only, is unchanged. -/
theorem claim_C4 (env : Nat → Bool) (k p : Nat) (s : vector α) (i : Nat)
    (hi : i < s.size) (hfail : env (k + i) = true)
    (hbefore : ∀ j, j < i → env (k + j) = false) :
    vector.copyCtor env k p s s.size = Except.error (Ev.alloc (p + 1) ::
      ((List.range i).map Ev.construct ++
        ((List.range i).reverse.map Ev.destroy ++ [Ev.free (p + 1)]))) :=
  vector.copyCtor_error_shape env k p s s.size (by omega) i hi hfail hbefore

/-- Witness for C4: copying `[7, 8]` with the copy of index 1 failing yields
the trace allocate, construct 0, destroy 0, free, and the error result. -/
theorem claim_C4_witness :
    (1 < (⟨[7, 8], 2, 9⟩ : vector Nat).size) ∧
      vector.copyCtor (fun n => n == 1) 0 0 (⟨[7, 8], 2, 9⟩ : vector Nat)
          (⟨[7, 8], 2, 9⟩ : vector Nat).size =
        Except.error (Ev.alloc 1 :: ((List.range 1).map Ev.construct ++
          ((List.range 1).reverse.map Ev.destroy ++ [Ev.free 1]))) :=
  ⟨by decide,
    claim_C4 (fun n => n == 1) 0 0 ⟨[7, 8], 2, 9⟩ 1 (by decide) (by decide)
      (by decide)⟩



/-- C5: copy assignment either fully succeeds — afterwards the left-hand side
is element-wise equal to the right-hand side — or, if any element copy fails,
leaves the left-hand side exactly as it was (size, capacity and element
values unchanged: `w = a`, all fields); and self-assignment (`&other == this`,
with the two operands the same object) is a no-op performed before any
allocation or element operation — it returns the container unchanged with
both the operation counter and the address counter untouched. -/
theorem claim_C5 (env : Nat → Bool) (k p : Nat) (a b v : vector α) :
    vector.assign env k p v v true = Except.ok (v, k, p) ∧
      (∀ w k2 p2, vector.assign env k p a b false = Except.ok (w, k2, p2) →
        w.size = b.size ∧ w.data_ = b.data_) ∧
      (∀ w, vector.assign env k p a b false = Except.error w → w = a) := by
  refine ⟨by rw [vector.assign, if_pos rfl], ?_, ?_⟩
  · intro w k2 p2 h
    rw [vector.assign, if_neg (by simp)] at h
    cases hc : vector.copyCtor env k p b b.size with
    | error e => rw [hc] at h; simp at h
    | ok res =>
      obtain ⟨t, k3, p3, evs⟩ := res
      rw [hc] at h
      simp only [Except.ok.injEq, Prod.mk.injEq] at h
      obtain ⟨hw, -, -⟩ := h
      by_cases h0 : b.size = 0
      · rw [vector.copyCtor, if_pos h0] at hc
        simp only [Except.ok.injEq, Prod.mk.injEq] at hc
        obtain ⟨ht, -, -, -⟩ := hc
        have hnil : b.data_ = [] := List.length_eq_zero.mp h0
        rw [← hw, ← ht]
        exact ⟨h0.symm, hnil.symm⟩
      · obtain ⟨ht, -, -, -⟩ := vector.copyCtor_ok_shape _ _ _ _ _ h0 _ _ _ _ hc
        rw [← hw, ht]
        exact ⟨rfl, rfl⟩
  · intro w h
    exact vector.assign_error_eq h

/-- Witness for C5: self-assignment of `[1]` is the identity with untouched
counters; assigning `[2, 4]` into `[1]` succeeds element-wise; a failing
element copy leaves the left-hand side `[1]` untouched. -/
theorem claim_C5_witness :
    vector.assign (fun _ => false) 0 0 (⟨[1], 1, 1⟩ : vector Nat) ⟨[1], 1, 1⟩ true =
        Except.ok (⟨[1], 1, 1⟩, 0, 0) ∧
      ((⟨[2, 4], 2, 1⟩ : vector Nat).size = (⟨[2, 4], 2, 7⟩ : vector Nat).size ∧
        (⟨[2, 4], 2, 1⟩ : vector Nat).data_ = (⟨[2, 4], 2, 7⟩ : vector Nat).data_) ∧
      ((⟨[1], 1, 1⟩ : vector Nat) = ⟨[1], 1, 1⟩) := by
  refine ⟨(claim_C5 (fun _ => false) 0 0 ⟨[1], 1, 1⟩ ⟨[1], 1, 1⟩ ⟨[1], 1, 1⟩).1, ?_, ?_⟩
  · exact (claim_C5 (fun _ => false) 0 0 ⟨[1], 1, 1⟩ ⟨[2, 4], 2, 7⟩ ⟨[1], 1, 1⟩).2.1
      ⟨[2, 4], 2, 1⟩ 2 1
      (by simp [vector.assign, vector.copyCtor, vector.copyElems, vector.tryCopy,
        vector.size])
  · exact (claim_C5 (fun _ => true) 0 0 ⟨[1], 1, 1⟩ ⟨[2, 4], 2, 7⟩ ⟨[1], 1, 1⟩).2.2
      ⟨[1], 1, 1⟩
      (by simp [vector.assign, vector.copyCtor, vector.copyElems, vector.tryCopy,
        vector.size])

/-- C6: `reserve(n)` is a no-op when `n <= capacity()` (the container, the
operation counter and the address counter are all returned unchanged); when
`n > capacity()`, a successful `reserve(n)` yields capacity exactly `n` — not
a doubled value — with the size and every stored element value unchanged. -/
theorem claim_C6 (env : Nat → Bool) (k p : Nat) (v : vector α) (n : Nat) :
    (n ≤ v.capacity_ → vector.reserve env k p v n = Except.ok (v, k, p)) ∧
      (n > v.capacity_ → ∀ w k2 p2,
        vector.reserve env k p v n = Except.ok (w, k2, p2) →
          w.capacity_ = n ∧ w.size = v.size ∧ w.data_ = v.data_) := by
  constructor
  · intro hle
    rw [vector.reserve, if_neg (by omega)]
  · intro hgt w k2 p2 h
    rw [vector.reserve, if_pos hgt] at h
    cases hc : vector.copyCtor env k p v n with
    | error e => rw [hc] at h; simp at h
    | ok res =>
      obtain ⟨t, k3, p3, evs⟩ := res
      rw [hc] at h
      simp only [Except.ok.injEq, Prod.mk.injEq] at h
      obtain ⟨hw, -, -⟩ := h
      obtain ⟨ht, -, -, -⟩ := vector.copyCtor_ok_shape _ _ _ _ _ (by omega) _ _ _ _ hc
      rw [← hw, ht]
      exact ⟨rfl, rfl, rfl⟩

/-- Witness for C6: on a container of size 1 and capacity 2, `reserve(2)` is
a no-op and `reserve(5)` succeeds with capacity exactly 5 and the element
untouched. -/
theorem claim_C6_witness :
    vector.reserve (fun _ => false) 0 0 (⟨[9], 2, 1⟩ : vector Nat) 2 =
        Except.ok (⟨[9], 2, 1⟩, 0, 0) ∧
      ((⟨[9], 5, 1⟩ : vector Nat).capacity_ = 5 ∧
        (⟨[9], 5, 1⟩ : vector Nat).size = (⟨[9], 2, 1⟩ : vector Nat).size ∧
        (⟨[9], 5, 1⟩ : vector Nat).data_ = (⟨[9], 2, 1⟩ : vector Nat).data_) :=
  ⟨(claim_C6 (fun _ => false) 0 0 ⟨[9], 2, 1⟩ 2).1 (by decide),
    (claim_C6 (fun _ => false) 0 0 ⟨[9], 2, 1⟩ 5).2 (by decide) ⟨[9], 5, 1⟩ 1 1
      (by simp [vector.reserve, vector.copyCtor, vector.copyElems, vector.tryCopy,
        vector.size])⟩

/-- C7: on a valid position, a successful `insert(pos, value)` places the
resolved value at index `index = pos - begin()`, keeps the elements before
that index in place and shifts the elements at and after it up by one
position in their original order; on a valid range, `erase(first, last)`
removes exactly the elements of `[f_index, l_index)`, decreasing the size by
the erased count: the elements before `f_index` stay in place and the
surviving suffix shifts down preserving its order and values. -/
theorem claim_C7 [Inhabited α] (env : Nat → Bool) (k p : Nat) (v : vector α)
    (index f l : Nat) (arg : Arg α) (hInv : vector.Inv v)
    (hidx : index ≤ v.size) (hf : f ≤ l) (hl : l ≤ v.size) :
    (∀ w r k2 p2, vector.insert env k p v index arg = Except.ok ((w, r), k2, p2) →
      w.data_ = v.data_.take index ++ arg.resolve v :: v.data_.drop index) ∧
    ((vector.erase v f l).1.data_ = v.data_.take f ++ v.data_.drop l ∧
      (vector.erase v f l).1.size = v.size - (l - f)) := by
  constructor
  · intro w r k2 p2 h
    exact (vector.insert_ok_spec hInv.1 hidx h).1
  · obtain ⟨hdata, -, -, -⟩ := vector.erase_spec v f l hf hl
    refine ⟨hdata, ?_⟩
    show (vector.erase v f l).1.data_.length = _
    rw [hdata, List.length_append, List.length_take, List.length_drop]
    have hvl : v.data_.length = v.size := rfl
    omega

/-- Witness for C7: inserting 99 at index 1 of `[10, 20]` (spare capacity)
gives `[10, 99, 20]`; erasing the index range `[1, 2)` of `[10, 20]` gives
`[10]` of size 1. -/
theorem claim_C7_witness :
    vector.Inv (⟨[10, 20], 4, 1⟩ : vector Nat) ∧
      1 ≤ (⟨[10, 20], 4, 1⟩ : vector Nat).size ∧
      (1 ≤ 2 ∧ 2 ≤ (⟨[10, 20], 4, 1⟩ : vector Nat).size) ∧
      (⟨[10, 99, 20], 4, 1⟩ : vector Nat).data_ =
        (⟨[10, 20], 4, 1⟩ : vector Nat).data_.take 1 ++
          (Arg.val 99).resolve (⟨[10, 20], 4, 1⟩ : vector Nat) ::
            (⟨[10, 20], 4, 1⟩ : vector Nat).data_.drop 1 ∧
      ((vector.erase (⟨[10, 20], 4, 1⟩ : vector Nat) 1 2).1.data_ =
          (⟨[10, 20], 4, 1⟩ : vector Nat).data_.take 1 ++
            (⟨[10, 20], 4, 1⟩ : vector Nat).data_.drop 2 ∧
        (vector.erase (⟨[10, 20], 4, 1⟩ : vector Nat) 1 2).1.size =
          (⟨[10, 20], 4, 1⟩ : vector Nat).size - (2 - 1)) := by
  have hInv : vector.Inv (⟨[10, 20], 4, 1⟩ : vector Nat) :=
    ⟨by decide, fun h => absurd h (by decide)⟩
  have hC := claim_C7 (fun _ => false) 0 0 ⟨[10, 20], 4, 1⟩ 1 1 2 (Arg.val 99) hInv
    (by decide) (by decide) (by decide)
  refine ⟨hInv, by decide, ⟨by decide, by decide⟩, ?_, hC.2⟩
  exact hC.1 ⟨[10, 99, 20], 4, 1⟩ 1 2 0
    (by simp [vector.insert, vector.push_back, vector.insertLoop, swapAt, Arg.resolve,
      vector.size])

/-- C8: under the contract that element swaps and destructors never fail —
built into the embedding, whose `erase` is a total function performing only
swaps (`eraseSwaps`) and destructions (`popN`), so the operation never
fails — `erase` on a valid range, in both the range and the single-element
overload, never changes the container's capacity or its data pointer. -/
theorem claim_C8 (v : vector α) (f l pos : Nat) (hf : f ≤ l) (hl : l ≤ v.size)
    (hpos : pos < v.size) :
    ((vector.erase v f l).1.capacity_ = v.capacity_ ∧
      (vector.erase v f l).1.addr_ = v.addr_) ∧
    ((vector.erase1 v pos).1.capacity_ = v.capacity_ ∧
      (vector.erase1 v pos).1.addr_ = v.addr_) :=
  ⟨⟨rfl, rfl⟩, ⟨rfl, rfl⟩⟩

/-- Witness for C8: erasing `[0, 1)` or the single element 0 of a 2-element
container preserves capacity and data pointer. -/
theorem claim_C8_witness :
    (0 ≤ 1 ∧ 1 ≤ (⟨[5, 6], 2, 3⟩ : vector Nat).size ∧ 0 < (⟨[5, 6], 2, 3⟩ : vector Nat).size) ∧
      ((vector.erase (⟨[5, 6], 2, 3⟩ : vector Nat) 0 1).1.capacity_ =
          (⟨[5, 6], 2, 3⟩ : vector Nat).capacity_ ∧
        (vector.erase (⟨[5, 6], 2, 3⟩ : vector Nat) 0 1).1.addr_ =
          (⟨[5, 6], 2, 3⟩ : vector Nat).addr_) ∧
      ((vector.erase1 (⟨[5, 6], 2, 3⟩ : vector Nat) 0).1.capacity_ =
          (⟨[5, 6], 2, 3⟩ : vector Nat).capacity_ ∧
        (vector.erase1 (⟨[5, 6], 2, 3⟩ : vector Nat) 0).1.addr_ =
          (⟨[5, 6], 2, 3⟩ : vector Nat).addr_) :=
  ⟨⟨by decide, by decide, by decide⟩,
    claim_C8 ⟨[5, 6], 2, 3⟩ 0 1 0 (by decide) (by decide) (by decide)⟩

/-- C9: every container state reachable from the default-constructed state by
any sequence of the public operations — including calls that fail and roll
back — satisfies `length <= capacity`, and a capacity-0 state has a null
storage pointer and length 0; preservation by each public operation is the
induction underlying `vector.reachable_inv`. -/
theorem claim_C9 [Inhabited α] (v : vector α) (h : vector.Reachable v) :
    v.size ≤ v.capacity_ ∧ (v.capacity_ = 0 → v.addr_ = 0 ∧ v.size = 0) :=
  vector.reachable_inv h

/-- Witness for C9: the default-constructed container is reachable and
satisfies the invariant. -/
theorem claim_C9_witness :
    (vector.nil : vector Nat).size ≤ (vector.nil : vector Nat).capacity_ ∧
      ((vector.nil : vector Nat).capacity_ = 0 →
        (vector.nil : vector Nat).addr_ = 0 ∧ (vector.nil : vector Nat).size = 0) :=
  claim_C9 vector.nil vector.Reachable.default_state

/-- C10: a successful `insert` returns `begin() + index` for the index
`pos - begin()` computed at entry, before any reallocation, and that slot
holds the newly inserted element; `erase(first, last)` (and through it
`erase(pos)`, which delegates to `erase(pos, pos + 1)`) returns
`begin() + f_index`, and after the call that slot holds what was at `l_index`
before the call — the first surviving element after the erased range, or
nothing (`end()`) when no element survives. -/
theorem claim_C10 [Inhabited α] (env : Nat → Bool) (k p : Nat) (v : vector α)
    (index f l pos : Nat) (arg : Arg α) (hInv : vector.Inv v)
    (hidx : index ≤ v.size) (hf : f ≤ l) (hl : l ≤ v.size) :
    (∀ w r k2 p2, vector.insert env k p v index arg = Except.ok ((w, r), k2, p2) →
      r = index ∧ w.data_[index]? = some (arg.resolve v)) ∧
    ((vector.erase v f l).2 = f ∧
      (vector.erase v f l).1.data_[f]? = v.data_[l]?) ∧
    (vector.erase1 v pos).2 = pos := by
  have hvl : v.data_.length = v.size := rfl
  refine ⟨?_, ⟨rfl, ?_⟩, rfl⟩
  · intro w r k2 p2 h
    obtain ⟨hdata, hr⟩ := vector.insert_ok_spec hInv.1 hidx h
    refine ⟨hr, ?_⟩
    have hlen : (v.data_.take index).length = index := by
      rw [List.length_take]; omega
    rw [hdata, List.getElem?_append_right (by omega), hlen, Nat.sub_self,
      List.getElem?_cons_zero]
  · obtain ⟨hdata, -, -, -⟩ := vector.erase_spec v f l hf hl
    have hlen : (v.data_.take f).length = f := by
      rw [List.length_take]; omega
    rw [hdata, List.getElem?_append_right (by omega), hlen, Nat.sub_self,
      List.getElem?_drop, Nat.add_zero]

/-- Witness for C10: inserting 99 at index 1 of `[10, 20]` returns index 1,
where 99 now sits; erasing `[0, 1)` returns index 0, where the old element 1
now sits; single-element erase at 0 returns index 0. -/
theorem claim_C10_witness :
    vector.Inv (⟨[10, 20], 4, 1⟩ : vector Nat) ∧
      1 ≤ (⟨[10, 20], 4, 1⟩ : vector Nat).size ∧
      (0 ≤ 1 ∧ 1 ≤ (⟨[10, 20], 4, 1⟩ : vector Nat).size) ∧
      (1 = 1 ∧ (⟨[10, 99, 20], 4, 1⟩ : vector Nat).data_[1]? =
        some ((Arg.val 99).resolve (⟨[10, 20], 4, 1⟩ : vector Nat))) ∧
      ((vector.erase (⟨[10, 20], 4, 1⟩ : vector Nat) 0 1).2 = 0 ∧
        (vector.erase (⟨[10, 20], 4, 1⟩ : vector Nat) 0 1).1.data_[0]? =
          (⟨[10, 20], 4, 1⟩ : vector Nat).data_[1]?) ∧
      (vector.erase1 (⟨[10, 20], 4, 1⟩ : vector Nat) 0).2 = 0 := by
  have hInv : vector.Inv (⟨[10, 20], 4, 1⟩ : vector Nat) :=
    ⟨by decide, fun h => absurd h (by decide)⟩
  have hC := claim_C10 (fun _ => false) 0 0 ⟨[10, 20], 4, 1⟩ 1 0 1 0 (Arg.val 99) hInv
    (by decide) (by decide) (by decide)
  refine ⟨hInv, by decide, ⟨by decide, by decide⟩, ?_, hC.2.1, hC.2.2⟩
  exact hC.1 ⟨[10, 99, 20], 4, 1⟩ 1 2 0
    (by simp [vector.insert, vector.push_back, vector.insertLoop, swapAt, Arg.resolve,
      vector.size])
